import Mathlib

/-!
Verification of the PDF extraction core of the Nordicsecure repository
(`backend/app/services/document_service.py`), shallowly embedded in Lean.
Python strings are modelled as `List Char`; Python dicts of invoice fields
as association lists; the fallible `parse_pdf` as an `Except` value.
-/

namespace DocSvc

/-- Python strings are modelled as lists of characters. -/
abbrev Str := List Char

/-- Characters of a string literal, used to write concrete inputs. -/
def str (s : String) : Str := s.data

/-- Model of Python `str.lower()` (ASCII case folding). -/
def pyLower (s : Str) : Str := s.map Char.toLower

/-- Model of Python `str.upper()` (ASCII case folding). -/
def pyUpper (s : Str) : Str := s.map Char.toUpper

/-- Model of Python `str.strip()`: drop whitespace from both ends. -/
def pyStrip (s : Str) : Str :=
  ((s.dropWhile Char.isWhitespace).reverse.dropWhile Char.isWhitespace).reverse

/-- Model of Python `sub in s` substring membership. -/
def pyContains (s sub : Str) : Bool :=
  sub.isPrefixOf s ||
    (match s with
     | [] => false
     | _ :: t => pyContains t sub)

/-- Model of Python `s.split(sep)` for a one-character separator. -/
def splitOnChar (sep : Char) : Str → List Str
  | [] => [[]]
  | c :: t =>
    if c = sep then [] :: splitOnChar sep t
    else
      match splitOnChar sep t with
      | [] => [[c]]
      | h :: r => (c :: h) :: r

/-- Model of `re.split(r'[:\-]', line)`: split at every character
satisfying the class predicate (each split consumes one character). -/
def splitOnPred (p : Char → Bool) : Str → List Str
  | [] => [[]]
  | c :: t =>
    if p c then [] :: splitOnPred p t
    else
      match splitOnPred p t with
      | [] => [[c]]
      | h :: r => (c :: h) :: r

/-- Model of Python `s.split()` with no argument: split on runs of
whitespace, dropping empty fields. -/
def pySplitWs (s : Str) : List Str :=
  ((splitOnPred Char.isWhitespace s).map id).filter (· ≠ [])

/-! ## A small backtracking regex engine

The Python service compiles a handful of `re` patterns.  We embed them as
an AST (`RE`) together with a fuel-bounded backtracking matcher in
continuation-passing style, faithful to CPython `re` semantics on these
patterns: leftmost match, alternation tries branches left to right,
quantifiers are greedy with backtracking, one capturing group.  Character
classes such as `\d`, `\s`, `\w` are modelled over ASCII. -/

/-- Regex abstract syntax: empty, character class, sequencing,
alternation, greedy star, greedy option, capturing group, `\b`. -/
inductive RE where
  | eps
  | cls (p : Char → Bool)
  | seq (a b : RE)
  | alt (a b : RE)
  | star (a : RE)
  | opt (a : RE)
  | group (a : RE)
  | wordB

/-- `\w`: word character (ASCII model of Python `re`). -/
def isWordChar (c : Char) : Bool := c.isAlphanum || c = '_'

/-- Whether a `\b` word boundary holds between the previous character and
the head of the remaining input. -/
def wordBoundary (prev : Option Char) (s : Str) : Bool :=
  let left := match prev with | some c => isWordChar c | none => false
  let right := match s with | c :: _ => isWordChar c | [] => false
  left != right

/-- First-success choice on `Option`. -/
def orElseOpt {α : Type} (x y : Option α) : Option α :=
  match x with
  | some v => some v
  | none => y

/-- Fuel-bounded backtracking matcher.  `prev` is the character before the
current position (for `\b`), `caps` the completed captures, `k` the
continuation receiving the state after this pattern. -/
def mrun : Nat → RE → Option Char → Str → List Str →
    (Option Char → Str → List Str → Option (Str × List Str)) → Option (Str × List Str)
  | 0, _, _, _, _, _ => none
  | n + 1, re, prev, s, caps, k =>
    match re with
    | .eps => k prev s caps
    | .cls p =>
      match s with
      | [] => none
      | c :: rest => if p c then k (some c) rest caps else none
    | .seq a b => mrun n a prev s caps (fun p1 s1 c1 => mrun n b p1 s1 c1 k)
    | .alt a b => orElseOpt (mrun n a prev s caps k) (mrun n b prev s caps k)
    | .star a =>
      orElseOpt
        (mrun n a prev s caps (fun p1 s1 c1 => mrun n (.star a) p1 s1 c1 k))
        (k prev s caps)
    | .opt a => orElseOpt (mrun n a prev s caps k) (k prev s caps)
    | .group a =>
      mrun n a prev s caps
        (fun p1 s1 c1 => k p1 s1 (c1 ++ [s.take (s.length - s1.length)]))
    | .wordB => if wordBoundary prev s then k prev s caps else none

/-- Try to match `re` at the current position, returning the matched text
(group 0) and the captures. -/
def matchAt (fuel : Nat) (re : RE) (prev : Option Char) (s : Str) :
    Option (Str × List Str) :=
  mrun fuel re prev s [] (fun _ s1 caps => some (s.take (s.length - s1.length), caps))

/-- Scan of `re.search`: try each start position from the left. -/
def reSearchAux (fuel : Nat) (re : RE) : Option Char → Str → Option (Str × List Str)
  | prev, s =>
    match matchAt fuel re prev s with
    | some r => some r
    | none =>
      match s with
      | [] => none
      | c :: t => reSearchAux fuel re (some c) t

/-- Model of `pattern.search(s)`: leftmost match with captures.  The fuel
bounds the backtracking depth and is chosen far beyond what the patterns
of the service can consume on `s`. -/
def reSearch (re : RE) (s : Str) : Option (Str × List Str) :=
  reSearchAux ((s.length + 2) * 400) re none s

/-- `match.group(1)` of a search. -/
def reSearchG1 (re : RE) (s : Str) : Option Str :=
  match reSearch re s with
  | some (_, g :: _) => some g
  | some (_, []) => none
  | none => none

/-- `match.group(0)` of a search. -/
def reSearchG0 (re : RE) (s : Str) : Option Str :=
  match reSearch re s with
  | some (g0, _) => some g0
  | none => none

/-- Literal character. -/
def reCh (c : Char) : RE := .cls (fun x => x = c)

/-- Case-insensitive literal character (`re.I`). -/
def reChCI (c : Char) : RE := .cls (fun x => x.toLower = c.toLower)

/-- Case-insensitive literal word (`re.I`). -/
def reStrCI (s : String) : RE := s.data.foldr (fun c r => .seq (reChCI c) r) .eps

/-- Sequence of regexes. -/
def reOf (l : List RE) : RE := l.foldr .seq .eps

/-- `r{n}`. -/
def reRepExact (r : RE) (n : Nat) : RE := reOf (List.replicate n r)

/-- Greedy `r{0,n}` as nested options (tries the longest first). -/
def reUpTo (r : RE) : Nat → RE
  | 0 => .eps
  | n + 1 => .opt (.seq r (reUpTo r n))

/-- Greedy `r{lo,hi}`. -/
def reRep (r : RE) (lo hi : Nat) : RE := .seq (reRepExact r lo) (reUpTo r (hi - lo))

/-- Greedy `r{lo,}`. -/
def reAtLeast (r : RE) (lo : Nat) : RE := .seq (reRepExact r lo) (.star r)

/-- Greedy `r+`. -/
def rePlus (r : RE) : RE := .seq r (.star r)

/-- `\d` (ASCII). -/
def reDigit : RE := .cls Char.isDigit

/-- `\s` (whitespace class). -/
def reWs : RE := .cls Char.isWhitespace

/-- A character class listing its members. -/
def reChars (cs : String) : RE := .cls (fun x => cs.data.contains x)

/-! ## The compiled patterns of `DocumentService` -/

/-- `AMOUNT_PATTERN = ([+-]?\d{1,3}(?:[ .]\d{3})*(?:[.,]\d{2})|\d+[.,]\d{2})` -/
def amountPattern : RE :=
  .group (.alt
    (reOf [.opt (reChars "+-"), reRep reDigit 1 3,
           .star (.seq (reChars " .") (reRepExact reDigit 3)),
           .seq (reChars ".,") (reRepExact reDigit 2)])
    (reOf [rePlus reDigit, reChars ".,", reRepExact reDigit 2]))

/-- `DATE_PATTERN =
`\b(\d{4}[/.\-]\d{1,2}[/.\-]\d{1,2}|\d{1,2}[/.\-]\d{1,2}[/.\-]\d{2,4})\b` -/
def datePattern : RE :=
  reOf [.wordB,
    .group (.alt
      (reOf [reRepExact reDigit 4, reChars "/.-", reRep reDigit 1 2,
             reChars "/.-", reRep reDigit 1 2])
      (reOf [reRep reDigit 1 2, reChars "/.-", reRep reDigit 1 2,
             reChars "/.-", reRep reDigit 2 4])),
    .wordB]

/-- `[A-Za-z0-9-]{3,}` (capture body of the invoice-number patterns). -/
def invToken : RE := reAtLeast (.cls (fun c => c.isAlphanum || c = '-')) 3

/-- `invoice\s*(?:no|number|nr|#)\s*[:#-]?\s*([A-Za-z0-9-]{3,})`, `re.I`. -/
def invoicePat1 : RE :=
  reOf [reStrCI "invoice", .star reWs,
        .alt (reStrCI "no") (.alt (reStrCI "number") (.alt (reStrCI "nr") (reCh '#'))),
        .star reWs, .opt (reChars ":#-"), .star reWs, .group invToken]

/-- `inv\.\s*[:#-]?\s*([A-Za-z0-9-]{3,})`, `re.I`. -/
def invoicePat2 : RE :=
  reOf [reStrCI "inv", reCh '.', .star reWs, .opt (reChars ":#-"),
        .star reWs, .group invToken]

/-- `faktura(?:nr|nummer)?\s*[:#-]?\s*([A-Za-z0-9-]{3,})`, `re.I`. -/
def invoicePat3 : RE :=
  reOf [reStrCI "faktura", .opt (.alt (reStrCI "nr") (reStrCI "nummer")),
        .star reWs, .opt (reChars ":#-"), .star reWs, .group invToken]

/-- `\bINV[-\s]?[A-Z0-9]{3,}\b`, `re.I` (invoice-number fallback). -/
def invFallbackPat : RE :=
  reOf [.wordB, reStrCI "inv", .opt (.cls (fun c => c = '-' || c.isWhitespace)),
        reAtLeast (.cls Char.isAlphanum) 3, .wordB]

/-! ## Amount handling -/

/-- `DocumentService._normalize_amount`: remove spaces; if a comma is
present replace every comma with a dot; if more than two dot-separated
parts remain, treat all but the last dot as thousands separators. -/
def normalizeAmount (amount : Str) : Str :=
  let a1 := amount.filter (· ≠ ' ')
  let a2 := if a1.contains ',' then a1.map (fun c => if c = ',' then '.' else c) else a1
  let parts := splitOnChar '.' a2
  if 2 < parts.length then (parts.dropLast).flatten ++ '.' :: parts.getLastD []
  else a2

/-- Digits to a natural number. -/
def digitsToNat (l : Str) : Nat :=
  l.foldl (fun acc c => acc * 10 + (c.toNat - '0'.toNat)) 0

/-- Model of Python `float(s)` on the decimal literals reaching it here:
optional sign, digit string with at most one dot, at least one digit;
anything else fails. -/
def parseFloatQ (s : Str) : Option ℚ :=
  let core : Str → Option ℚ := fun t =>
    match splitOnChar '.' t with
    | [ip] =>
      if ip ≠ [] && ip.all Char.isDigit then some (digitsToNat ip : ℚ) else none
    | [ip, fp] =>
      if (ip ++ fp) ≠ [] && ip.all Char.isDigit && fp.all Char.isDigit then
        some ((digitsToNat ip : ℚ) + (digitsToNat fp : ℚ) / (10 : ℚ) ^ fp.length)
      else none
    | _ => none
  match s with
  | '+' :: t => core t
  | '-' :: t => (core t).map (fun q => -q)
  | t => core t

/-- `DocumentService._amount_to_number`: strip spaces, commas to dots,
parse as a number, defaulting to `0.0` on failure. -/
def amountToNumber (s : Str) : ℚ :=
  let normalized := (s.filter (· ≠ ' ')).map (fun c => if c = ',' then '.' else c)
  match parseFloatQ normalized with
  | some q => q
  | none => 0

/-! ## Confidence clamping -/

/-- Round-half-to-even on rationals (model of Python `round`). -/
def roundHalfEven (q : ℚ) : ℤ :=
  let f := ⌊q⌋
  let r := q - (f : ℚ)
  if r < 1 / 2 then f
  else if 1 / 2 < r then f + 1
  else if f % 2 = 0 then f else f + 1

/-- Python `round(v, 2)` modelled on rationals. -/
def round2 (q : ℚ) : ℚ := (roundHalfEven (q * 100) : ℚ) / 100

/-- `DocumentService._clamp_confidence`: `max(0.0, min(1.0, round(value, 2)))`
with non-numeric input (the `TypeError`/`ValueError` branch, modelled as
`none`) clamping to 0. -/
def clampConfidence : Option ℚ → ℚ
  | some v => max 0 (min 1 (round2 v))
  | none => 0

/-! ## Field candidates and detectors -/

/-- A `{"value": ..., "confidence": ...}` dictionary of the service. -/
structure FieldCandidate where
  value : Option Str
  confidence : ℚ
deriving DecidableEq, Repr

/-- The keyword-anchored amount candidates of
`DocumentService._detect_amount`: every line whose lowercase form contains
one of the keywords contributes its first `AMOUNT_PATTERN` match,
normalized, together with its numeric value. -/
def amountCandidates (lines : List Str) (keywords : List Str) : List (Str × ℚ) :=
  lines.filterMap (fun line =>
    if keywords.any (fun kw => pyContains (pyLower line) kw) then
      match reSearchG1 amountPattern line with
      | some g1 => some (normalizeAmount g1, amountToNumber (normalizeAmount g1))
      | none => none
    else none)

/-- Insert into a list sorted by descending numeric value (stable model of
Python `list.sort(key=..., reverse=True)` for the head element). -/
def insertDesc (x : Str × ℚ) : List (Str × ℚ) → List (Str × ℚ)
  | [] => [x]
  | y :: ys => if y.2 < x.2 then x :: y :: ys else y :: insertDesc x ys

/-- Insert into a list sorted by ascending numeric value. -/
def insertAsc (x : Str × ℚ) : List (Str × ℚ) → List (Str × ℚ)
  | [] => [x]
  | y :: ys => if x.2 < y.2 then x :: y :: ys else y :: insertAsc x ys

/-- Stable sort by numeric value, descending. -/
def sortDesc (l : List (Str × ℚ)) : List (Str × ℚ) := l.foldr insertDesc []

/-- Stable sort by numeric value, ascending. -/
def sortAsc (l : List (Str × ℚ)) : List (Str × ℚ) := l.foldr insertAsc []

/-- `DocumentService._detect_amount`: keyword-anchored candidates sorted by
numeric value (descending iff `prefer_highest`), first one wins at 0.85;
fallback: first `AMOUNT_PATTERN` match on any line at 0.3; else null/0. -/
def detectAmount (lines : List Str) (keywords : List Str) (preferHighest : Bool) :
    FieldCandidate :=
  match amountCandidates lines keywords with
  | c :: cs =>
    let sorted := if preferHighest then sortDesc (c :: cs) else sortAsc (c :: cs)
    ⟨some (sorted.headD c).1, 0.85⟩
  | [] =>
    match lines.findSome? (fun line => reSearchG1 amountPattern line) with
    | some g1 => ⟨some (normalizeAmount g1), 0.3⟩
    | none => ⟨none, 0⟩

/-- `DocumentService._detect_invoice_number`. -/
def detectInvoiceNumber (lines : List Str) (fullText : Str) : FieldCandidate :=
  match lines.findSome? (fun line =>
      if pyContains (pyLower line) (str "invoice date") ||
         pyContains (pyLower line) (str "fakturadatum") then none
      else [invoicePat1, invoicePat2, invoicePat3].findSome?
        (fun p => reSearchG1 p line)) with
  | some v => ⟨some v, 0.9⟩
  | none =>
    match reSearchG0 invFallbackPat fullText with
    | some g0 => ⟨some g0, 0.5⟩
    | none => ⟨none, 0⟩

/-- `DocumentService._detect_date`: first `DATE_PATTERN` match on a line
containing one of the keywords at 0.85; fallback anywhere at 0.4. -/
def detectDate (lines : List Str) (fullText : Str) (keywords : List Str) :
    FieldCandidate :=
  match lines.findSome? (fun line =>
      if keywords.any (fun kw => pyContains (pyLower line) kw) then
        reSearchG1 datePattern line
      else none) with
  | some v => ⟨some v, 0.85⟩
  | none =>
    match reSearchG1 datePattern fullText with
    | some v => ⟨some v, 0.4⟩
    | none => ⟨none, 0⟩

/-- `DocumentService.KNOWN_CURRENCIES` in source order. -/
def KNOWN_CURRENCIES : List Str :=
  [str "SEK", str "USD", str "EUR", str "GBP", str "NOK", str "DKK",
   str "CHF", str "JPY", str "kr", str "dkk", str "nok", str "usd",
   str "eur", str "$", str "€"]

/-- The `for currency in self.KNOWN_CURRENCIES` loop of
`_find_currency_token`. -/
def findCurrencyLoop (text : Str) : List Str → Option Str
  | [] => none
  | cur :: rest =>
    if pyContains (pyLower text) (pyLower cur) then some cur
    else findCurrencyLoop text rest

/-- `DocumentService._find_currency_token`: the first element of
`KNOWN_CURRENCIES` whose lowercase form is a substring of the lowercased
text. -/
def findCurrencyToken (text : Str) : Option Str :=
  findCurrencyLoop text KNOWN_CURRENCIES

/-- `DocumentService._normalize_currency`. -/
def normalizeCurrency (token : Str) : Str :=
  let upper := pyUpper token
  if upper = str "$" then str "USD"
  else if upper = str "€" then str "EUR"
  else if upper = str "KR" then str "SEK"
  else upper

/-- `DocumentService._detect_currency`: first line with a currency token
at 0.8; else whole text at 0.5; else null/0. -/
def detectCurrency (lines : List Str) (fullText : Str) : FieldCandidate :=
  match lines.findSome? (fun line => findCurrencyToken line) with
  | some token => ⟨some (normalizeCurrency token), 0.8⟩
  | none =>
    match findCurrencyToken fullText with
    | some token => ⟨some (normalizeCurrency token), 0.5⟩
    | none => ⟨none, 0⟩

/-- Whether one of the compiled role patterns of `_detect_party_name`
matches a line: the patterns are case-insensitive literal words, so
`pattern.search(line)` is a case-insensitive substring test. -/
def partyMatches (pats : List Str) (line : Str) : Bool :=
  pats.any (fun p => pyContains (pyLower line) (pyLower p))

/-- The `[:\-]` character class used by `_detect_party_name`. -/
def partySep (c : Char) : Bool := c = ':' || c = '-'

/-- The loop of `DocumentService._detect_party_name`: on the first line a
role pattern matches, take the second `[:\-]`-split field if its strip is
non-empty (0.8), else the next line if one exists (0.7); if the matching
line is the last one, continue scanning (the loop then ends). -/
def detectPartyLoop (pats : List Str) : List Str → Option (Str × ℚ)
  | [] => none
  | line :: rest =>
    if partyMatches pats line then
      match (splitOnPred partySep line).get? 1 with
      | some p1 =>
        if pyStrip p1 ≠ [] then some (pyStrip p1, 0.8)
        else
          match rest with
          | next :: _ => some (pyStrip next, 0.7)
          | [] => detectPartyLoop pats rest
      | none =>
        match rest with
        | next :: _ => some (pyStrip next, 0.7)
        | [] => detectPartyLoop pats rest
    else detectPartyLoop pats rest

/-- `DocumentService._detect_party_name`: keyword scan, else the line at
`fallback_index` at 0.3, else null/0. -/
def detectPartyName (lines : List Str) (pats : List Str) (fallbackIndex : Nat) :
    FieldCandidate :=
  match detectPartyLoop pats lines with
  | some (v, c) => ⟨some v, c⟩
  | none =>
    match lines.get? fallbackIndex with
    | some l => ⟨some (pyStrip l), 0.3⟩
    | none => ⟨none, 0⟩

/-- Swedish keyword set of `DocumentService._detect_language`. -/
def swedishKeywords : List Str :=
  [str "faktura", str "belopp", str "förfallodatum", str "org.nr",
   str "kundnummer", str "leverantör", str "moms"]

/-- English keyword set of `DocumentService._detect_language`. -/
def englishKeywords : List Str :=
  [str "invoice", str "amount", str "due date", str "customer",
   str "supplier", str "tax", str "subtotal"]

/-- `DocumentService._detect_language`. -/
def detectLanguage (text : Str) : Str :=
  let tl := pyLower text
  let sw := (swedishKeywords.filter (fun kw => pyContains tl kw)).length
  let en := (englishKeywords.filter (fun kw => pyContains tl kw)).length
  if sw = 0 && en = 0 then str "unknown"
  else if en ≤ sw then str "sv" else str "en"

/-! ## Text normalization and field aggregation -/

/-- Python `text.replace("\r\n", "\n")`: left-to-right, non-overlapping. -/
def replaceCRLF : Str → Str
  | '\r' :: '\n' :: t => '\n' :: replaceCRLF t
  | c :: t => c :: replaceCRLF t
  | [] => []

/-- `DocumentService._normalize_text`: CRLF to LF, tabs to spaces, strip. -/
def normalizeText (text : Str) : Str :=
  pyStrip ((replaceCRLF text).map (fun c => if c = '\t' then ' ' else c))

/-- `DocumentService._split_into_lines`: non-empty stripped lines. -/
def splitIntoLines (text : Str) : List Str :=
  ((splitOnChar '\n' text).map pyStrip).filter (· ≠ [])

/-- Output triple of `DocumentService._build_key_values`, with the two
dictionaries as association lists in insertion order. -/
structure KeyValuesOut where
  keyValues : List (Str × Option Str)
  confidences : List (Str × ℚ)
  language : Str
deriving DecidableEq, Repr

/-- `DocumentService._build_key_values`: runs every field detector over the
normalized text and assembles the `key_values` and `key_values_confidence`
dictionaries. -/
def buildKeyValues (text : Str) : KeyValuesOut :=
  let normalizedText := normalizeText text
  let lines := splitIntoLines normalizedText
  let language := detectLanguage normalizedText
  let invoiceNumber := detectInvoiceNumber lines normalizedText
  let invoiceDate := detectDate lines normalizedText
    [str "invoice date", str "issue date", str "fakturadatum", str "datum"]
  let dueDate := detectDate lines normalizedText
    [str "due date", str "due", str "förfallodatum", str "forfallodatum"]
  let totalAmount := detectAmount lines
    [str "total", str "totalt", str "amount due", str "total belopp"] true
  let subtotal := detectAmount lines
    [str "subtotal", str "delsumma", str "net total"] false
  let vat := detectAmount lines [str "vat", str "moms", str "tax"] false
  let currency := detectCurrency lines normalizedText
  let supplier := detectPartyName lines [str "supplier", str "leverantör"] 0
  let customer := detectPartyName lines [str "customer", str "kund"] 2
  { keyValues := [
      (str "invoice_number", invoiceNumber.value),
      (str "invoice_date", invoiceDate.value),
      (str "due_date", dueDate.value),
      (str "total_amount", totalAmount.value),
      (str "subtotal_amount", subtotal.value),
      (str "vat_amount", vat.value),
      (str "currency", currency.value),
      (str "supplier_name", supplier.value),
      (str "customer_name", customer.value)],
    confidences := [
      (str "invoice_number", clampConfidence (some invoiceNumber.confidence)),
      (str "invoice_date", clampConfidence (some invoiceDate.confidence)),
      (str "due_date", clampConfidence (some dueDate.confidence)),
      (str "total_amount", clampConfidence (some totalAmount.confidence)),
      (str "subtotal_amount", clampConfidence (some subtotal.confidence)),
      (str "vat_amount", clampConfidence (some vat.confidence)),
      (str "currency", clampConfidence (some currency.confidence)),
      (str "supplier_name", clampConfidence (some supplier.confidence)),
      (str "customer_name", clampConfidence (some customer.confidence))],
    language := language }

/-! ## Table extraction -/

/-- A page entry `{"page_number": i, "text": t}`. -/
structure ParsedPage where
  page_number : Nat
  text : Str
deriving DecidableEq, Repr

/-- A detected table. -/
structure Table where
  page_number : Nat
  rows : List (List Str)
deriving DecidableEq, Repr

/-- Model of `re.split(r'\s{2,}', s)`: split at every maximal run of two
or more whitespace characters.  `cur` is the current field, `pend` the
pending whitespace run not yet known to reach length 2. -/
def wsRunSplitGo (cur pend : Str) : Str → List Str
  | [] => if 2 ≤ pend.length then [cur, []] else [cur ++ pend]
  | c :: rest =>
    if c.isWhitespace then wsRunSplitGo cur (pend ++ [c]) rest
    else if 2 ≤ pend.length then cur :: wsRunSplitGo [c] [] rest
    else wsRunSplitGo (cur ++ pend ++ [c]) [] rest

/-- `re.split(r'\s{2,}', s)`. -/
def wsRunSplit (s : Str) : List Str := wsRunSplitGo [] [] s

/-- `DocumentService._looks_like_table_row`. -/
def looksLikeTableRow (line : Str) : Bool :=
  if pyStrip line = [] then false
  else
    let trimmed := pyStrip line
    trimmed.contains '|' || trimmed.contains '\t' ||
      decide (3 ≤ (wsRunSplit trimmed).length)

/-- `DocumentService._split_row`. -/
def splitRow (line : Str) : List Str :=
  if line.contains '|' then ((splitOnChar '|' line).map pyStrip).filter (· ≠ [])
  else if line.contains '\t' then ((splitOnChar '\t' line).map pyStrip).filter (· ≠ [])
  else ((wsRunSplit (pyStrip line)).map pyStrip).filter (· ≠ [])

/-- The nested `flush_rows` of `_extract_tables`: append the accumulated
rows as a table only if there are at least two of them. -/
def flushRows (pageNumber : Nat) (cur : List (List Str)) (tables : List Table) :
    List Table :=
  if 2 ≤ cur.length then tables ++ [⟨pageNumber, cur⟩] else tables

/-- One line step of `_extract_tables`: table-like lines accumulate, any
other line flushes. -/
def tableScanLine (pageNumber : Nat) (acc : List Table × List (List Str))
    (line : Str) : List Table × List (List Str) :=
  if looksLikeTableRow line then (acc.1, acc.2 ++ [splitRow line])
  else (flushRows pageNumber acc.2 acc.1, [])

/-- `_extract_tables` restricted to one page (with the shared `tables`
accumulator threaded through). -/
def extractTablesPage (tables : List Table) (page : ParsedPage) : List Table :=
  let lines := splitOnChar '\n' page.text
  let out := lines.foldl (tableScanLine page.page_number) (tables, [])
  flushRows page.page_number out.2 out.1

/-- `DocumentService._extract_tables`. -/
def extractTables (pages : List ParsedPage) : List Table :=
  pages.foldl extractTablesPage []

/-! ## Scanned-document heuristic and parse orchestration -/

/-- `DocumentService._is_likely_scanned`: empty or trimmed length below
100, else alphabetic share below one half (`alpha_count < len(text)*0.5`). -/
def isLikelyScanned (text : Str) : Bool :=
  if text = [] || (pyStrip text).length < 100 then true
  else decide (2 * text.countP (fun c => c.isAlpha) < text.length)

/-- Abstract PDF input for `parse_pdf`: encryption flag and the digital
text that `page.extract_text()` yields per page (a page whose extraction
raised is recorded as the empty string by the source, so it is just
another entry here). -/
structure Pdf where
  encrypted : Bool
  pageTexts : List Str
deriving DecidableEq, Repr

/-- Document-level failures of `parse_pdf` (each raised as `ValueError`
in the source). -/
inductive ParseError where
  | encrypted
  | emptyPdf
  | ocrUnavailable
deriving DecidableEq, Repr

/-- The result dictionary of `parse_pdf`. -/
structure ExtractionResult where
  raw_text : Str
  pages : List ParsedPage
  tables : List Table
  file_name : Str
  pages_count : Nat
  detected_language : Str
  key_values : List (Str × Option Str)
  key_values_confidence : List (Str × ℚ)
deriving DecidableEq, Repr

/-- Page list with 1-based page numbers. -/
def numberPages (texts : List Str) : List ParsedPage :=
  texts.enum.map (fun p => ⟨p.1 + 1, p.2⟩)

/-- `raw_text += page_text + "\n"` over all pages. -/
def joinNewlinePlus (texts : List Str) : Str :=
  texts.foldl (fun acc t => acc ++ t ++ ['\n']) []

/-- `"\n".join(texts)`. -/
def joinNewlineSep : List Str → Str
  | [] => []
  | [t] => t
  | t :: rest => t ++ '\n' :: joinNewlineSep rest

/-- `DocumentService.parse_pdf`.  The external PDF reader is abstracted by
`pdf`; the OCR backend by `ocr` (`none` = pdf2image/pytesseract missing,
`some ts` = per-page OCR text).  Structure mirrors the source: encrypted
and zero-page failures, digital extraction of the first `max_pages` pages,
the scanned heuristic on the newline-joined concatenation, OCR replacing
the digital pages entirely when triggered, then tables and key values. -/
def parsePdf (pdf : Pdf) (ocr : Option (List Str)) (maxPages : Option Nat)
    (filename : Str) : Except ParseError ExtractionResult :=
  if pdf.encrypted then .error .encrypted
  else
    let pageCount := pdf.pageTexts.length
    if pageCount = 0 then .error .emptyPdf
    else
      let pagesToExtract := match maxPages with
        | none => pageCount
        | some m => min m pageCount
      let digitalTexts := pdf.pageTexts.take pagesToExtract
      let rawDigital := joinNewlinePlus digitalTexts
      let step2 : Except ParseError (List ParsedPage × Str × Nat) :=
        if isLikelyScanned rawDigital then
          match ocr with
          | none => .error .ocrUnavailable
          | some ts =>
            let ts2 := match maxPages with
              | none => ts
              | some m => ts.take m
            .ok (numberPages ts2, joinNewlineSep ts2, ts2.length)
        else .ok (numberPages digitalTexts, rawDigital, pageCount)
      match step2 with
      | .error e => .error e
      | .ok (pages, rawText, pageCount2) =>
        let kv := buildKeyValues rawText
        .ok { raw_text := pyStrip rawText, pages := pages,
              tables := extractTables pages, file_name := filename,
              pages_count := pageCount2, detected_language := kv.language,
              key_values := kv.keyValues,
              key_values_confidence := kv.confidences }

/-- Observation helper: the `raw_text` of a successful parse. -/
def parsedRawText : Except ParseError ExtractionResult → Option Str
  | .ok r => some r.raw_text
  | .error _ => none

/-- Observation helper: the `pages` of a successful parse. -/
def parsedPages : Except ParseError ExtractionResult → Option (List ParsedPage)
  | .ok r => some r.pages
  | .error _ => none

/-! ## Citation lookup -/

/-- `set(s.split())`: the distinct whitespace-separated words. -/
def wordSet (s : Str) : List Str := (pySplitWs s).dedup

/-- `len(query_words & line_words)`: `qw` is already duplicate-free. -/
def interCard (qw lw : List Str) : Nat :=
  (qw.filter (fun w => lw.contains w)).length

/-- Scan loop of `DocumentService._find_best_matching_line`: blank lines
are skipped, an exact case-insensitive substring match returns at once
(`Sum.inl`), otherwise the best word-overlap triple
`(score, line_number, stripped text)` is tracked. -/
def fbmlScan (ql : Str) (qw : List Str) :
    List Str → Nat → Nat × Nat × Str → Sum (Nat × Str) (Nat × Nat × Str)
  | [], _, best => .inr best
  | line :: rest, i, best =>
    if pyStrip line = [] then fbmlScan ql qw rest (i + 1) best
    else if pyContains (pyLower line) ql then .inl (i, pyStrip line)
    else
      let overlap := interCard qw (wordSet (pyLower line))
      let best2 := if best.1 < overlap then (overlap, i, pyStrip line) else best
      fbmlScan ql qw rest (i + 1) best2

/-- The final fallback loop: first non-blank line with its number. -/
def firstNonBlank : List Str → Nat → Option (Nat × Str)
  | [], _ => none
  | line :: rest, i =>
    if pyStrip line ≠ [] then some (i, pyStrip line)
    else firstNonBlank rest (i + 1)

/-- `DocumentService._find_best_matching_line`. -/
def findBestMatchingLine (text query : Str) : Nat × Str :=
  match splitOnChar '\n' text with
  | [] => (1, [])
  | l0 :: rest =>
    let ql := pyLower query
    let qw := wordSet ql
    match fbmlScan ql qw (l0 :: rest) 1 (0, 1, l0) with
    | .inl r => r
    | .inr (score, num, txt) =>
      if 0 < score then (num, txt)
      else
        match firstNonBlank (l0 :: rest) 1 with
        | some r => r
        | none => (1, l0)

/-! ## Page sampling -/

/-- Ascending insertion into a sorted list of indices. -/
def insertNatAsc (x : Nat) : List Nat → List Nat
  | [] => [x]
  | y :: ys => if x ≤ y then x :: y :: ys else y :: insertNatAsc x ys

/-- Ascending insertion sort on indices. -/
def sortNat (l : List Nat) : List Nat := l.foldr insertNatAsc []

/-- De-duplication keeping first occurrences. -/
def dedupKeepFirst : List Nat → List Nat
  | [] => []
  | x :: t => x :: dedupKeepFirst (t.filter (· ≠ x))
termination_by l => l.length
decreasing_by
  simp_wf
  exact Nat.lt_succ_of_le (List.length_filter_le _ _)

/-- Modelled from the spec: `DocumentService._get_page_indices_to_extract`
is exercised by `backend/test_sampling_strategy.py` but its implementation
is not among the provided sources.  Following §4.1 of the spec: a null
page budget returns all indices; the strategy string is matched on
`"random"` case-insensitively, anything else is linear; linear takes the
first `min(max_pages, total_pages)` indices; "random" (a deterministic
start/middle/end sampler) returns all indices when `total_pages ≤ 3`, and
otherwise the sorted de-duplicated set `{0, (total_pages-1)/2,
total_pages-1}` truncated to at most `max_pages` entries. -/
def getPageIndicesToExtract (totalPages : Nat) (maxPages : Option Nat)
    (strategy : Str) : List Nat :=
  match maxPages with
  | none => List.range totalPages
  | some maxP =>
    if pyLower strategy = str "random" then
      if totalPages ≤ 3 then List.range totalPages
      else (sortNat (dedupKeepFirst
        [0, (totalPages - 1) / 2, totalPages - 1])).take maxP
    else List.range (min maxP totalPages)

/-! ## Helper lemmas -/

theorem sortNat_triple {a b c : Nat} (hab : a ≤ b) (hbc : b ≤ c) :
    sortNat [a, b, c] = [a, b, c] := by
  simp [sortNat, insertNatAsc, hab, hbc]

theorem dedupKeepFirst_triple {a b c : Nat} (hab : a ≠ b) (hac : a ≠ c)
    (hbc : b ≠ c) :
    dedupKeepFirst [a, b, c] = [a, b, c] := by
  have hba := Ne.symm hab
  have hca := Ne.symm hac
  have hcb := Ne.symm hbc
  simp [dedupKeepFirst, List.filter, hba, hca, hcb]

theorem splitOnChar_ne_nil (sep : Char) (l : Str) : splitOnChar sep l ≠ [] := by
  induction l with
  | nil => simp [splitOnChar]
  | cons c t ih =>
    simp only [splitOnChar]
    split
    · simp
    · cases h : splitOnChar sep t with
      | nil => simp
      | cons a r => simp

theorem mem_of_mem_splitOnChar {sep : Char} {l p : Str}
    (hp : p ∈ splitOnChar sep l) : ∀ c ∈ p, c ∈ l ∧ c ≠ sep := by
  induction l generalizing p with
  | nil =>
    simp only [splitOnChar, List.mem_singleton] at hp
    subst hp
    intro c hc
    cases hc
  | cons a t ih =>
    intro c hc
    simp only [splitOnChar] at hp
    by_cases ha : a = sep
    · rw [if_pos ha] at hp
      rcases List.mem_cons.mp hp with h0 | h0
      · subst h0; cases hc
      · obtain ⟨h1, h2⟩ := ih h0 c hc
        exact ⟨List.mem_cons_of_mem _ h1, h2⟩
    · rw [if_neg ha] at hp
      cases h : splitOnChar sep t with
      | nil => exact absurd h (splitOnChar_ne_nil sep t)
      | cons hh r =>
        rw [h] at hp
        rcases List.mem_cons.mp hp with h0 | h0
        · subst h0
          rcases List.mem_cons.mp hc with h1 | h1
          · subst h1; exact ⟨List.mem_cons_self _ _, ha⟩
          · have : hh ∈ splitOnChar sep t := h ▸ List.mem_cons_self _ _
            obtain ⟨h2, h3⟩ := ih this c h1
            exact ⟨List.mem_cons_of_mem _ h2, h3⟩
        · have : p ∈ splitOnChar sep t := h ▸ List.mem_cons_of_mem _ h0
          obtain ⟨h2, h3⟩ := ih this c hc
          exact ⟨List.mem_cons_of_mem _ h2, h3⟩

theorem splitOnChar_of_not_mem {sep : Char} {l : Str} (h : sep ∉ l) :
    splitOnChar sep l = [l] := by
  induction l with
  | nil => rfl
  | cons c t ih =>
    have hc : c ≠ sep := fun e => h (e ▸ List.mem_cons_self _ _)
    have ht : sep ∉ t := fun e => h (List.mem_cons_of_mem _ e)
    simp only [splitOnChar, if_neg (fun e => hc (e : c = sep)), ih ht]

theorem splitOnChar_append_sep {sep : Char} {u v : Str} (h : sep ∉ u) :
    splitOnChar sep (u ++ sep :: v) = u :: splitOnChar sep v := by
  induction u with
  | nil => simp [splitOnChar]
  | cons c u' ih =>
    have hc : c ≠ sep := fun e => h (e ▸ List.mem_cons_self _ _)
    have hu : sep ∉ u' := fun e => h (List.mem_cons_of_mem _ e)
    simp only [List.cons_append, splitOnChar, if_neg (fun e => hc (e : c = sep))]
    rw [show u'.append (sep :: v) = u' ++ sep :: v from rfl, ih hu]

theorem getLastD_mem {α : Type} : ∀ (l : List α) (d : α), l ≠ [] → l.getLastD d ∈ l
  | [], _, h => absurd rfl h
  | a :: t, d, _ => by
    rw [List.getLastD_cons]
    exact List.getLastD_mem_cons t a

theorem pyStrip_eq_nil {s : Str} (h : ∀ c ∈ s, c.isWhitespace) :
    pyStrip s = [] := by
  unfold pyStrip
  rw [List.dropWhile_eq_nil_iff.mpr h]
  rfl

theorem pyStrip_length_le (s : Str) : (pyStrip s).length ≤ s.length := by
  unfold pyStrip
  rw [List.length_reverse]
  calc ((s.dropWhile Char.isWhitespace).reverse.dropWhile Char.isWhitespace).length
      ≤ (s.dropWhile Char.isWhitespace).reverse.length :=
        (List.dropWhile_sublist _).length_le
    _ = (s.dropWhile Char.isWhitespace).length := List.length_reverse _
    _ ≤ s.length := (List.dropWhile_sublist _).length_le

theorem mem_joinPlus_aux {c : Char} :
    ∀ (ts : List Str) (acc : Str),
      c ∈ ts.foldl (fun acc t => acc ++ t ++ ['\n']) acc →
      c ∈ acc ∨ (∃ t ∈ ts, c ∈ t) ∨ c = '\n'
  | [], acc, h => Or.inl h
  | t :: ts, acc, h => by
    rcases mem_joinPlus_aux ts (acc ++ t ++ ['\n']) h with h0 | h0 | h0
    · rcases List.mem_append.mp h0 with h1 | h1
      · rcases List.mem_append.mp h1 with h2 | h2
        · exact Or.inl h2
        · exact Or.inr (Or.inl ⟨t, List.mem_cons_self _ _, h2⟩)
      · exact Or.inr (Or.inr (List.mem_singleton.mp h1))
    · obtain ⟨u, hu, hcu⟩ := h0
      exact Or.inr (Or.inl ⟨u, List.mem_cons_of_mem _ hu, hcu⟩)
    · exact Or.inr (Or.inr h0)

theorem mem_joinNewlinePlus {c : Char} {ts : List Str}
    (h : c ∈ joinNewlinePlus ts) : (∃ t ∈ ts, c ∈ t) ∨ c = '\n' := by
  rcases mem_joinPlus_aux ts [] h with h0 | h0
  · cases h0
  · exact h0

theorem mem_joinNewlineSep {c : Char} :
    ∀ {ts : List Str}, c ∈ joinNewlineSep ts → (∃ t ∈ ts, c ∈ t) ∨ c = '\n'
  | [], h => by cases h
  | [t], h => Or.inl ⟨t, List.mem_singleton.mpr rfl, h⟩
  | t :: u :: ts, h => by
    rw [show joinNewlineSep (t :: u :: ts) = t ++ '\n' :: joinNewlineSep (u :: ts)
      from rfl] at h
    rcases List.mem_append.mp h with h0 | h0
    · exact Or.inl ⟨t, List.mem_cons_self _ _, h0⟩
    · rcases List.mem_cons.mp h0 with h1 | h1
      · exact Or.inr h1
      · rcases mem_joinNewlineSep h1 with ⟨v, hv, hcv⟩ | h2
        · exact Or.inl ⟨v, List.mem_cons_of_mem _ hv, hcv⟩
        · exact Or.inr h2

/-- Key invariant of `normalizeAmount`: its output contains no space and
no comma, and splits on dots into at most two parts. -/
theorem normalizeAmount_inv (x : Str) :
    (' ' ∉ normalizeAmount x ∧ ',' ∉ normalizeAmount x) ∧
      ¬ 2 < (splitOnChar '.' (normalizeAmount x)).length := by
  unfold normalizeAmount
  set a1 := x.filter (· ≠ ' ') with ha1
  set a2 := if a1.contains ',' then a1.map (fun c => if c = ',' then '.' else c) else a1
    with ha2
  have hsp1 : ' ' ∉ a1 := by
    intro hmem
    have := List.of_mem_filter hmem
    simp at this
  have hsp : ' ' ∉ a2 := by
    rw [ha2]
    split
    · intro hmem
      obtain ⟨d, hd, hde⟩ := List.mem_map.mp hmem
      by_cases hdc : d = ','
      · rw [if_pos hdc] at hde; cases hde
      · rw [if_neg hdc] at hde; exact hsp1 (hde ▸ hd)
    · exact hsp1
  have hcm : ',' ∉ a2 := by
    rw [ha2]
    split
    · intro hmem
      obtain ⟨d, hd, hde⟩ := List.mem_map.mp hmem
      by_cases hdc : d = ','
      · rw [if_pos hdc] at hde; cases hde
      · rw [if_neg hdc] at hde; exact hdc (hde.symm ▸ rfl)
    · intro hmem
      rename_i hcont
      exact hcont (List.elem_iff.mpr hmem)
  set parts := splitOnChar '.' a2 with hparts
  by_cases hlen : 2 < parts.length
  · rw [if_pos hlen]
    set u := (parts.dropLast).flatten with hu
    set lastP := parts.getLastD [] with hlast
    have hpartsne : parts ≠ [] := hparts ▸ splitOnChar_ne_nil '.' a2
    have hlastmem : lastP ∈ parts := getLastD_mem parts [] hpartsne
    have humem : ∀ c ∈ u, c ∈ a2 ∧ c ≠ '.' := by
      intro c hc
      obtain ⟨p, hp, hcp⟩ := List.mem_flatten.mp hc
      exact mem_of_mem_splitOnChar ((List.dropLast_sublist parts).subset hp) c hcp
    have hlmem : ∀ c ∈ lastP, c ∈ a2 ∧ c ≠ '.' := by
      intro c hc
      exact mem_of_mem_splitOnChar hlastmem c hc
    refine ⟨⟨?_, ?_⟩, ?_⟩
    · intro hmem
      rcases List.mem_append.mp hmem with h0 | h0
      · exact hsp (humem _ h0).1
      · rcases List.mem_cons.mp h0 with h1 | h1
        · cases h1
        · exact hsp (hlmem _ h1).1
    · intro hmem
      rcases List.mem_append.mp hmem with h0 | h0
      · exact hcm (humem _ h0).1
      · rcases List.mem_cons.mp h0 with h1 | h1
        · cases h1
        · exact hcm (hlmem _ h1).1
    · have hdotu : '.' ∉ u := fun hmem => (humem _ hmem).2 rfl
      have hdotl : '.' ∉ lastP := fun hmem => (hlmem _ hmem).2 rfl
      rw [splitOnChar_append_sep hdotu, splitOnChar_of_not_mem hdotl]
      simp
  · rw [if_neg hlen]
    exact ⟨⟨hsp, hcm⟩, hlen⟩

/-! ## Claim theorems -/

/-- C8: Amount normalization is idempotent —
`normalize(normalize(x)) == normalize(x)` for every amount string (proved
here for every string whatsoever) — and in particular
`normalize("1,000.00") == "1000.00"` and
`normalize("1 000,00") == "1000.00"`. -/
theorem c8_normalize_amount_idempotent :
    (∀ x : Str, normalizeAmount (normalizeAmount x) = normalizeAmount x) ∧
    normalizeAmount (str "1,000.00") = str "1000.00" ∧
    normalizeAmount (str "1 000,00") = str "1000.00" := by
  refine ⟨?_, by decide, by decide⟩
  intro x
  obtain ⟨⟨hsp, hcm⟩, hlen⟩ := normalizeAmount_inv x
  set y := normalizeAmount x with hy
  have hfilter : y.filter (· ≠ ' ') = y := by
    rw [List.filter_eq_self]
    intro a ha
    simp only [ne_eq, decide_eq_true_eq]
    exact fun e => hsp (e ▸ ha)
  have hcont : y.contains ',' = false := by
    cases h : y.contains ',' with
    | false => rfl
    | true => exact absurd (List.elem_iff.mp h) hcm
  show normalizeAmount y = y
  unfold normalizeAmount
  rw [hfilter]
  simp only [hcont, Bool.false_eq_true, if_false]
  rw [if_neg hlen]

/-- C2: For every `total_pages ≥ 4` and `max_pages ≥ 3`, page selection
with strategy "random" returns exactly the sorted de-duplicated set
`{0, (total_pages-1)/2, total_pages-1}` (three distinct indices, so in
particular `[0, 49, 99]` for 100 pages and a budget of 5). -/
theorem c2_random_page_selection (totalPages maxP : Nat)
    (h4 : 4 ≤ totalPages) (h3 : 3 ≤ maxP) :
    getPageIndicesToExtract totalPages (some maxP) (str "random") =
      [0, (totalPages - 1) / 2, totalPages - 1] := by
  have hrand : pyLower (str "random") = str "random" := by decide
  have hnot3 : ¬ totalPages ≤ 3 := by omega
  have hstep : getPageIndicesToExtract totalPages (some maxP) (str "random") =
      (sortNat (dedupKeepFirst
        [0, (totalPages - 1) / 2, totalPages - 1])).take maxP := by
    unfold getPageIndicesToExtract
    rw [hrand]
    simp [hnot3]
  rw [hstep, dedupKeepFirst_triple (by omega) (by omega) (by omega),
    sortNat_triple (Nat.zero_le _) (by omega),
    List.take_of_length_le (by simpa using h3)]

/-- C2 witness: the concrete instance `total_pages = 100`,
`max_pages = 5` from the spec returns `[0, 49, 99]`. -/
theorem c2_random_page_selection_witness :
    getPageIndicesToExtract 100 (some 5) (str "random") = [0, 49, 99] :=
  c2_random_page_selection 100 5 (by omega) (by omega)

theorem findCurrencyLoop_eq_find (text : Str) :
    ∀ l : List Str, findCurrencyLoop text l =
      l.find? (fun cur => pyContains (pyLower text) (pyLower cur))
  | [] => rfl
  | cur :: rest => by
    by_cases h : pyContains (pyLower text) (pyLower cur) = true
    all_goals
      simp [findCurrencyLoop, List.find?_cons, h, findCurrencyLoop_eq_find text rest]

/-- C10: The currency token chosen is the first element of the fixed
`KNOWN_CURRENCIES` list whose lowercase form occurs anywhere as a
case-insensitive substring of the text — irrespective of word boundaries
or of which token appears earliest in the text.  In particular a line
containing "kr" only inside the unrelated word "utskrift" yields SEK at
confidence 0.8, and a line mentioning "kr" before "USD" yields USD
because "USD" precedes "kr" in the list. -/
theorem c10_currency_list_order :
    (∀ text : Str, findCurrencyToken text =
      KNOWN_CURRENCIES.find? (fun cur => pyContains (pyLower text) (pyLower cur))) ∧
    detectCurrency [str "utskrift"] [] = ⟨some (str "SEK"), 0.8⟩ ∧
    detectCurrency [str "100 kr paid in USD"] [] = ⟨some (str "USD"), 0.8⟩ :=
  ⟨fun text => findCurrencyLoop_eq_find text KNOWN_CURRENCIES, by rfl, by rfl⟩

theorem fbmlScan_exact (ql : Str) (qw : List Str) :
    ∀ (lines : List Str) (i : Nat) (best : Nat × Nat × Str) (j : Nat) (line : Str),
      List.findIdx? (fun l => !(pyStrip l).isEmpty && pyContains (pyLower l) ql)
        lines = some j →
      lines[j]? = some line →
      fbmlScan ql qw lines i best = .inl (i + j, pyStrip line)
  | [], _, _, _, _, hfind, _ => by cases hfind
  | l :: rest, i, best, j, line, hfind, hget => by
    rw [List.findIdx?_cons] at hfind
    by_cases hp : (!(pyStrip l).isEmpty && pyContains (pyLower l) ql) = true
    · rw [if_pos hp] at hfind
      obtain ⟨h1, h2⟩ := Bool.and_eq_true_iff.mp hp
      have hne : ¬ pyStrip l = [] := by
        simpa [List.isEmpty_iff] using h1
      have hj : j = 0 := (Option.some_inj.mp hfind).symm
      subst hj
      have hline : line = l := by
        simpa using hget.symm
      rw [show fbmlScan ql qw (l :: rest) i best =
        (if pyStrip l = [] then fbmlScan ql qw rest (i + 1) best
         else if pyContains (pyLower l) ql then .inl (i, pyStrip l)
         else
           fbmlScan ql qw rest (i + 1)
             (if best.1 < interCard qw (wordSet (pyLower l))
              then (interCard qw (wordSet (pyLower l)), i, pyStrip l) else best))
        from rfl]
      rw [if_neg hne, if_pos h2, Nat.add_zero, hline]
    · rw [if_neg hp, List.findIdx?_succ] at hfind
      obtain ⟨j', hj', hjeq⟩ := Option.map_eq_some'.mp hfind
      subst hjeq
      have hget' : rest[j']? = some line := by
        simpa using hget
      have ih := fbmlScan_exact ql qw rest (i + 1) best j' line hj' hget'
      rw [show fbmlScan ql qw (l :: rest) i best =
        (if pyStrip l = [] then fbmlScan ql qw rest (i + 1) best
         else if pyContains (pyLower l) ql then .inl (i, pyStrip l)
         else
           fbmlScan ql qw rest (i + 1)
             (if best.1 < interCard qw (wordSet (pyLower l))
              then (interCard qw (wordSet (pyLower l)), i, pyStrip l) else best))
        from rfl]
      rcases Bool.and_eq_false_iff.mp (Bool.not_eq_true _ ▸ hp) with h0 | h0
      · have hblank : pyStrip l = [] := by
          simpa [List.isEmpty_iff] using h0
        have harith : i + 1 + j' = i + (j' + 1) := by omega
        rw [if_pos hblank, ih, harith]
      · have hnc : ¬ pyContains (pyLower l) ql = true := by simp [h0]
        have harith : i + 1 + j' = i + (j' + 1) := by omega
        by_cases hblank : pyStrip l = []
        · rw [if_pos hblank, ih, harith]
        · rw [if_neg hblank, if_neg hnc,
            fbmlScan_exact ql qw rest (i + 1) _ j' line hj' hget', harith]

/-- C6 (amended): if some non-blank line of the chunk contains the full
query string as a case-insensitive substring, locate returns the first
such line (in scan order) with its 1-based line number. -/
theorem c6_exact_phrase_line (text query : Str) (j : Nat) (line : Str)
    (hfind : List.findIdx?
        (fun l => !(pyStrip l).isEmpty && pyContains (pyLower l) (pyLower query))
        (splitOnChar '\n' text) = some j)
    (hget : (splitOnChar '\n' text)[j]? = some line) :
    findBestMatchingLine text query = (j + 1, pyStrip line) := by
  cases hsplit : splitOnChar '\n' text with
  | nil => exact absurd hsplit (splitOnChar_ne_nil _ _)
  | cons l0 rest =>
    rw [hsplit] at hfind hget
    have hscan := fbmlScan_exact (pyLower query) (wordSet (pyLower query))
      (l0 :: rest) 1 (0, 1, l0) j line hfind hget
    unfold findBestMatchingLine
    rw [hsplit]
    simp only [hscan]
    rw [Nat.add_comm]

/-- C6 witness: the spec's example — the query "important information" is
found on line 3 of the three-line chunk. -/
theorem c6_exact_phrase_line_witness :
    findBestMatchingLine
      (str "First line\nSecond line with content\nThird line contains important information")
      (str "important information") =
      (2 + 1, pyStrip (str "Third line contains important information")) :=
  c6_exact_phrase_line _ _ 2 _ (by decide) (by decide)

/-- C6 counterexample: with chunk `"  \nq  q"` and query `" "`, the first
line (which is blank but does contain the query as a substring) is
skipped, and locate returns line 2 — refuting the claim that the first
line containing the query is always returned. -/
theorem c6_counterexample :
    findBestMatchingLine (str "  \nq  q") (str " ") = (2, str "q  q") ∧
    pyContains (pyLower (str "  ")) (pyLower (str " ")) = true ∧
    (splitOnChar '\n' (str "  \nq  q"))[0]? = some (str "  ") := by
  refine ⟨by decide, by decide, by decide⟩

theorem flushRows_inv {pn : Nat} {cur : List (List Str)} {tables : List Table}
    (h : ∀ t ∈ tables, 2 ≤ t.rows.length) :
    ∀ t ∈ flushRows pn cur tables, 2 ≤ t.rows.length := by
  intro t ht
  unfold flushRows at ht
  split at ht
  · rcases List.mem_append.mp ht with h0 | h0
    · exact h t h0
    · rename_i hcur
      rw [List.mem_singleton.mp h0]
      exact hcur
  · exact h t ht

theorem tableScan_inv {pn : Nat} :
    ∀ (lines : List Str) (acc : List Table × List (List Str)),
      (∀ t ∈ acc.1, 2 ≤ t.rows.length) →
      ∀ t ∈ (lines.foldl (tableScanLine pn) acc).1, 2 ≤ t.rows.length
  | [], _, h => h
  | line :: rest, acc, h => by
    rw [List.foldl_cons]
    apply tableScan_inv rest
    unfold tableScanLine
    split
    · exact h
    · exact flushRows_inv h

theorem extractTablesPage_inv {page : ParsedPage} {tables : List Table}
    (h : ∀ t ∈ tables, 2 ≤ t.rows.length) :
    ∀ t ∈ extractTablesPage tables page, 2 ≤ t.rows.length :=
  flushRows_inv (tableScan_inv _ _ h)

theorem extractTables_inv :
    ∀ (pages : List ParsedPage) (tables : List Table),
      (∀ t ∈ tables, 2 ≤ t.rows.length) →
      ∀ t ∈ pages.foldl extractTablesPage tables, 2 ≤ t.rows.length
  | [], _, h => h
  | p :: ps, tables, h => by
    rw [List.foldl_cons]
    exact extractTables_inv ps _ (extractTablesPage_inv h)

/-- C7: Table detection only ever emits tables with at least two rows: a
flushed run of table-like lines becomes a `Table` only when it has ≥ 2
rows, so a single isolated table-like line (second conjunct, concretely)
never produces a table. -/
theorem c7_tables_have_two_rows :
    (∀ (pages : List ParsedPage) (t : Table),
       t ∈ extractTables pages → 2 ≤ t.rows.length) ∧
    extractTables [⟨1, str "a|b"⟩] = [] := by
  constructor
  · intro pages t ht
    exact extractTables_inv pages [] (by intro u hu; cases hu) t ht
  · decide

/-- C7 witness: a two-row pipe table on one page is emitted and the
theorem yields its row bound. -/
theorem c7_tables_have_two_rows_witness :
    2 ≤ (Table.mk 1 [[str "a", str "b"], [str "c", str "d"]]).rows.length :=
  c7_tables_have_two_rows.1 [⟨1, str "a|b\nc|d\nx"⟩] _ (by decide)

theorem detectPartyLoop_none {pats : List Str} :
    ∀ {lines : List Str}, (∀ l ∈ lines, partyMatches pats l = false) →
      detectPartyLoop pats lines = none
  | [], _ => rfl
  | line :: rest, h => by
    have hm : partyMatches pats line = false := h line (List.mem_cons_self _ _)
    have ih := detectPartyLoop_none (fun l hl => h l (List.mem_cons_of_mem _ hl))
    simp [detectPartyLoop, hm, ih]

theorem detectPartyLoop_append {pats : List Str} :
    ∀ (pre suf : List Str), (∀ l ∈ pre, partyMatches pats l = false) →
      detectPartyLoop pats (pre ++ suf) = detectPartyLoop pats suf
  | [], _, _ => rfl
  | p :: pre, suf, h => by
    have hm : partyMatches pats p = false := h p (List.mem_cons_self _ _)
    have ih := detectPartyLoop_append pre suf
      (fun l hl => h l (List.mem_cons_of_mem _ hl))
    simp [detectPartyLoop, hm]
    exact ih

/-- C5 (amended): on the first line matching a role pattern, the value is
the second `[:\-]`-split field of that line — the text between the first
':'/'-' and the next one, not everything after the separator — trimmed,
at 0.8 when non-blank; else the next line at 0.7 when one exists; and if
no line matches at all, the line at the fixed fallback index at 0.3. -/
theorem c5_party_name_rules (pats : List Str) (fi : Nat) :
    (∀ lines : List Str, (∀ l ∈ lines, partyMatches pats l = false) →
       detectPartyName lines pats fi =
         (match lines.get? fi with
          | some l => ⟨some (pyStrip l), 0.3⟩
          | none => ⟨none, 0⟩)) ∧
    (∀ (pre rest : List Str) (line p1 : Str),
       (∀ l ∈ pre, partyMatches pats l = false) →
       partyMatches pats line = true →
       (splitOnPred partySep line)[1]? = some p1 →
       pyStrip p1 ≠ [] →
       detectPartyName (pre ++ line :: rest) pats fi = ⟨some (pyStrip p1), 0.8⟩) ∧
    (∀ (pre rest2 : List Str) (line next : Str),
       (∀ l ∈ pre, partyMatches pats l = false) →
       partyMatches pats line = true →
       ((splitOnPred partySep line)[1]? = none ∨
        ∃ p1, (splitOnPred partySep line)[1]? = some p1 ∧ pyStrip p1 = []) →
       detectPartyName (pre ++ line :: next :: rest2) pats fi =
         ⟨some (pyStrip next), 0.7⟩) := by
  refine ⟨?_, ?_, ?_⟩
  · intro lines h
    unfold detectPartyName
    rw [detectPartyLoop_none h]
  · intro pre rest line p1 hpre hmatch hp1 hstrip
    unfold detectPartyName
    rw [detectPartyLoop_append pre (line :: rest) hpre]
    simp [detectPartyLoop, hmatch, hp1, hstrip]
  · intro pre rest2 line next hpre hmatch hp1
    unfold detectPartyName
    rw [detectPartyLoop_append pre (line :: next :: rest2) hpre]
    rcases hp1 with h0 | ⟨p1, h0, h1⟩
    · simp [detectPartyLoop, hmatch, h0]
    · simp [detectPartyLoop, hmatch, h0, h1]

/-- C5 witness: applying the 0.8 rule at the line "Supplier: ACME-Inc". -/
theorem c5_party_name_rules_witness :
    detectPartyName ([] ++ str "Supplier: ACME-Inc" :: [])
      [str "supplier", str "leverantör"] 0 = ⟨some (pyStrip (str " ACME")), 0.8⟩ :=
  (c5_party_name_rules [str "supplier", str "leverantör"] 0).2.1 [] []
    (str "Supplier: ACME-Inc") (str " ACME") (by simp) (by decide) (by decide)
    (by decide)

/-- C5 counterexample: on the single line "Supplier: ACME-Inc" the claim
says the value is the text after the ':' (trimmed), i.e. "ACME-Inc", but
`re.split(r'[:\-]', line)` also splits at the '-' inside the name, so the
code extracts only "ACME". -/
theorem c5_counterexample :
    detectPartyName [str "Supplier: ACME-Inc"]
      [str "supplier", str "leverantör"] 0 = ⟨some (str "ACME"), 0.8⟩ ∧
    pyStrip (str " ACME-Inc") = str "ACME-Inc" ∧
    str "ACME" ≠ str "ACME-Inc" :=
  ⟨by rfl, by decide, by decide⟩

theorem insertDesc_ne_nil (x : Str × ℚ) : ∀ l, insertDesc x l ≠ []
  | [] => by simp [insertDesc]
  | z :: zs => by
    unfold insertDesc
    split
    · simp
    · simp

theorem insertAsc_ne_nil (x : Str × ℚ) : ∀ l, insertAsc x l ≠ []
  | [] => by simp [insertAsc]
  | z :: zs => by
    unfold insertAsc
    split
    · simp
    · simp

theorem sortDesc_spec (dflt : Str × ℚ) :
    ∀ l : List (Str × ℚ), l ≠ [] →
      (sortDesc l).headD dflt ∈ l ∧
        ∀ y ∈ l, y.2 ≤ ((sortDesc l).headD dflt).2
  | [], h => absurd rfl h
  | [a], _ => by
    constructor
    · simp [sortDesc, insertDesc]
    · intro y hy
      rw [List.mem_singleton.mp hy]
      simp [sortDesc, insertDesc]
  | a :: b :: l', _ => by
    obtain ⟨hmem, hmax⟩ := sortDesc_spec dflt (b :: l') (List.cons_ne_nil _ _)
    have hs : sortDesc (a :: b :: l') = insertDesc a (sortDesc (b :: l')) := rfl
    cases hsd : sortDesc (b :: l') with
    | nil => exact absurd hsd (by rw [show sortDesc (b :: l') =
        insertDesc b (sortDesc l') from rfl]; exact insertDesc_ne_nil _ _)
    | cons h t =>
      rw [hsd] at hmem hmax
      simp only [List.headD_cons] at hmem hmax
      rw [hs, hsd]
      unfold insertDesc
      by_cases hlt : h.2 < a.2
      · rw [if_pos hlt]
        simp only [List.headD_cons]
        refine ⟨List.mem_cons_self _ _, ?_⟩
        intro y hy
        rcases List.mem_cons.mp hy with h0 | h0
        · rw [h0]
        · exact le_of_lt (lt_of_le_of_lt (hmax y h0) hlt)
      · rw [if_neg hlt]
        simp only [List.headD_cons]
        refine ⟨List.mem_cons_of_mem _ hmem, ?_⟩
        intro y hy
        rcases List.mem_cons.mp hy with h0 | h0
        · rw [h0]; exact le_of_not_lt hlt
        · exact hmax y h0

theorem sortAsc_spec (dflt : Str × ℚ) :
    ∀ l : List (Str × ℚ), l ≠ [] →
      (sortAsc l).headD dflt ∈ l ∧
        ∀ y ∈ l, ((sortAsc l).headD dflt).2 ≤ y.2
  | [], h => absurd rfl h
  | [a], _ => by
    constructor
    · simp [sortAsc, insertAsc]
    · intro y hy
      rw [List.mem_singleton.mp hy]
      simp [sortAsc, insertAsc]
  | a :: b :: l', _ => by
    obtain ⟨hmem, hmin⟩ := sortAsc_spec dflt (b :: l') (List.cons_ne_nil _ _)
    have hs : sortAsc (a :: b :: l') = insertAsc a (sortAsc (b :: l')) := rfl
    cases hsd : sortAsc (b :: l') with
    | nil => exact absurd hsd (by rw [show sortAsc (b :: l') =
        insertAsc b (sortAsc l') from rfl]; exact insertAsc_ne_nil _ _)
    | cons h t =>
      rw [hsd] at hmem hmin
      simp only [List.headD_cons] at hmem hmin
      rw [hs, hsd]
      unfold insertAsc
      by_cases hlt : a.2 < h.2
      · rw [if_pos hlt]
        simp only [List.headD_cons]
        refine ⟨List.mem_cons_self _ _, ?_⟩
        intro y hy
        rcases List.mem_cons.mp hy with h0 | h0
        · rw [h0]
        · exact le_of_lt (lt_of_lt_of_le hlt (hmin y h0))
      · rw [if_neg hlt]
        simp only [List.headD_cons]
        refine ⟨List.mem_cons_of_mem _ hmem, ?_⟩
        intro y hy
        rcases List.mem_cons.mp hy with h0 | h0
        · rw [h0]; exact le_of_not_lt hlt
        · exact hmin y h0

/-- C4: when more than one keyword-anchored amount candidate exists,
`total_amount` extraction (prefer_highest) returns a candidate of
numerically maximal value, while subtotal/vat extraction
(prefer_highest = false) returns a candidate of numerically minimal
value. -/
theorem c4_amount_candidate_selection (lines keywords : List Str)
    (h : 1 < (amountCandidates lines keywords).length) :
    (∃ c ∈ amountCandidates lines keywords,
       (detectAmount lines keywords true).value = some c.1 ∧
       ∀ d ∈ amountCandidates lines keywords, d.2 ≤ c.2) ∧
    (∃ c ∈ amountCandidates lines keywords,
       (detectAmount lines keywords false).value = some c.1 ∧
       ∀ d ∈ amountCandidates lines keywords, c.2 ≤ d.2) := by
  obtain ⟨c, cs, hc⟩ : ∃ c cs, amountCandidates lines keywords = c :: cs := by
    cases hcc : amountCandidates lines keywords with
    | nil => rw [hcc] at h; simp at h
    | cons a b => exact ⟨a, b, rfl⟩
  obtain ⟨hmem, hmax⟩ := sortDesc_spec c (c :: cs) (List.cons_ne_nil _ _)
  obtain ⟨hmem2, hmin⟩ := sortAsc_spec c (c :: cs) (List.cons_ne_nil _ _)
  constructor
  · refine ⟨(sortDesc (c :: cs)).headD c, hc ▸ hmem, ?_, ?_⟩
    · unfold detectAmount
      rw [hc]
      rfl
    · intro d hd
      exact hmax d (hc ▸ hd)
  · refine ⟨(sortAsc (c :: cs)).headD c, hc ▸ hmem2, ?_, ?_⟩
    · unfold detectAmount
      rw [hc]
      rfl
    · intro d hd
      exact hmin d (hc ▸ hd)

/-- C4 witness: two "total"-anchored candidates 5.00 and 10.00. -/
theorem c4_amount_candidate_selection_witness :
    (∃ c ∈ amountCandidates [str "total 5.00", str "total 10.00"] [str "total"],
       (detectAmount [str "total 5.00", str "total 10.00"] [str "total"] true).value =
         some c.1 ∧
       ∀ d ∈ amountCandidates [str "total 5.00", str "total 10.00"] [str "total"],
         d.2 ≤ c.2) ∧
    (∃ c ∈ amountCandidates [str "total 5.00", str "total 10.00"] [str "total"],
       (detectAmount [str "total 5.00", str "total 10.00"] [str "total"] false).value =
         some c.1 ∧
       ∀ d ∈ amountCandidates [str "total 5.00", str "total 10.00"] [str "total"],
         c.2 ≤ d.2) :=
  c4_amount_candidate_selection [str "total 5.00", str "total 10.00"] [str "total"]
    (by decide)

theorem clampConfidence_bounds (v : Option ℚ) :
    0 ≤ clampConfidence v ∧ clampConfidence v ≤ 1 ∧
      (clampConfidence v * 100).den = 1 := by
  cases v with
  | none =>
    refine ⟨le_refl 0, show (0 : ℚ) ≤ 1 by norm_num, ?_⟩
    show ((0 : ℚ) * 100).den = 1
    norm_num
  | some q =>
    refine ⟨le_max_left 0 _, max_le (by norm_num) (min_le_left 1 _), ?_⟩
    have h1 : clampConfidence (some q) * 100 =
        ((max 0 (min 100 (roundHalfEven (q * 100))) : ℤ) : ℚ) := by
      show max 0 (min 1 ((roundHalfEven (q * 100) : ℚ) / 100)) * 100 = _
      rw [max_mul_of_nonneg _ _ (by norm_num : (0:ℚ) ≤ 100),
          min_mul_of_nonneg _ _ (by norm_num : (0:ℚ) ≤ 100),
          zero_mul, one_mul, div_mul_cancel₀ _ (by norm_num : (100:ℚ) ≠ 0)]
      push_cast
      rfl
    rw [h1, Rat.den_intCast]

/-- C9: Field extraction always produces matching key sets for
`key_values` and `key_values_confidence`, every confidence is clamped to
`[0,1]` and is an exact multiple of `0.01` (two-decimal rounding), and a
non-numeric confidence input clamps to 0. -/
theorem c9_key_value_confidence_invariants (text : Str) :
    (buildKeyValues text).keyValues.map Prod.fst =
      (buildKeyValues text).confidences.map Prod.fst ∧
    ((buildKeyValues text).confidences.map Prod.snd).Forall
      (fun c => 0 ≤ c ∧ c ≤ 1 ∧ (c * 100).den = 1) ∧
    clampConfidence none = 0 := by
  refine ⟨rfl, ?_, rfl⟩
  show List.Forall _ _
  simp only [buildKeyValues, List.map_cons, List.map_nil]
  exact ⟨clampConfidence_bounds _, clampConfidence_bounds _, clampConfidence_bounds _,
    clampConfidence_bounds _, clampConfidence_bounds _, clampConfidence_bounds _,
    clampConfidence_bounds _, clampConfidence_bounds _, clampConfidence_bounds _⟩

/-- Computation of `parse_pdf` along the OCR branch: with an unencrypted
non-empty document whose digital concatenation triggers the scanned
heuristic, no page budget, and an available OCR backend, the OCR pages
replace the digital ones entirely. -/
theorem parsePdf_ocr_path (pdf : Pdf) (ts : List Str) (fname : Str)
    (henc : pdf.encrypted = false) (hne : pdf.pageTexts ≠ [])
    (hscan : isLikelyScanned (joinNewlinePlus pdf.pageTexts) = true) :
    parsePdf pdf (some ts) none fname =
      .ok { raw_text := pyStrip (joinNewlineSep ts),
            pages := numberPages ts,
            tables := extractTables (numberPages ts),
            file_name := fname,
            pages_count := ts.length,
            detected_language := (buildKeyValues (joinNewlineSep ts)).language,
            key_values := (buildKeyValues (joinNewlineSep ts)).keyValues,
            key_values_confidence :=
              (buildKeyValues (joinNewlineSep ts)).confidences } := by
  have hne' : ¬ pdf.pageTexts.length = 0 := by
    simpa [List.length_eq_zero] using hne
  unfold parsePdf
  rw [henc]
  simp only [Bool.false_eq_true, if_false, if_neg hne', List.take_length, hscan,
    if_true]

/-- C1 (amended): when every extraction path yields only whitespace —
every digital page text is whitespace and the OCR texts are whitespace —
`parse_pdf` still returns a successful `ExtractionResult`, whose
`raw_text` is the empty string after stripping; there is no
`NoExtractableText` failure. -/
theorem c1_empty_extraction_succeeds (pdf : Pdf) (ts : List Str) (fname : Str)
    (henc : pdf.encrypted = false) (hne : pdf.pageTexts ≠ [])
    (hdig : ∀ t ∈ pdf.pageTexts, ∀ c ∈ t, c.isWhitespace)
    (hocr : ∀ t ∈ ts, ∀ c ∈ t, c.isWhitespace) :
    parsedRawText (parsePdf pdf (some ts) none fname) = some [] := by
  have hscan : isLikelyScanned (joinNewlinePlus pdf.pageTexts) = true := by
    have hnil : pyStrip (joinNewlinePlus pdf.pageTexts) = [] := by
      apply pyStrip_eq_nil
      intro c hc
      rcases mem_joinNewlinePlus hc with ⟨t, ht, hct⟩ | rfl
      · exact hdig t ht c hct
      · decide
    unfold isLikelyScanned
    rw [hnil]
    simp
  rw [parsePdf_ocr_path pdf ts fname henc hne hscan]
  show some (pyStrip (joinNewlineSep ts)) = some []
  rw [pyStrip_eq_nil]
  intro c hc
  rcases mem_joinNewlineSep hc with ⟨t, ht, hct⟩ | rfl
  · exact hocr t ht c hct
  · decide

/-- C1 witness: one whitespace digital page, one whitespace OCR page. -/
theorem c1_empty_extraction_succeeds_witness :
    parsedRawText (parsePdf ⟨false, [str "  "]⟩ (some [str " "]) none
      (str "doc.pdf")) = some [] :=
  c1_empty_extraction_succeeds ⟨false, [str "  "]⟩ [str " "] (str "doc.pdf")
    rfl (by decide) (by decide) (by decide)

/-- C1 counterexample: a one-page PDF whose digital extraction and OCR
both yield empty text parses successfully (with empty `raw_text`) instead
of failing with a `NoExtractableText` error — no such error exists in the
code, refuting the claim that whitespace-only extraction fails and that
every successful `ExtractionResult` has non-empty stripped `raw_text`. -/
theorem c1_counterexample :
    parsedRawText (parsePdf ⟨false, [[]]⟩ (some [[]]) none (str "doc.pdf")) =
      some [] := by decide

/-- C3: the scanned-document heuristic holds exactly when the trimmed
text is shorter than 100 characters or fewer than half of the text's
characters are alphabetic; consequently a document whose digital
concatenation is shorter than 100 characters takes the OCR path (its
pages are replaced by the OCR pages) even if OCR output is equally
sparse. -/
theorem c3_scanned_heuristic :
    (∀ text : Str, isLikelyScanned text = true ↔
       ((pyStrip text).length < 100 ∨
        2 * text.countP (fun c => c.isAlpha) < text.length)) ∧
    (∀ (pdf : Pdf) (ts : List Str) (fname : Str),
       pdf.encrypted = false → pdf.pageTexts ≠ [] →
       (joinNewlinePlus pdf.pageTexts).length < 100 →
       parsedPages (parsePdf pdf (some ts) none fname) =
         some (numberPages ts)) := by
  constructor
  · intro text
    unfold isLikelyScanned
    by_cases h1 : text = []
    · subst h1
      simp [pyStrip]
    · by_cases h2 : (pyStrip text).length < 100
      · simp [h1, h2]
      · simp [h1, h2]
  · intro pdf ts fname henc hne hlen
    have hscan : isLikelyScanned (joinNewlinePlus pdf.pageTexts) = true := by
      unfold isLikelyScanned
      have h2 : (pyStrip (joinNewlinePlus pdf.pageTexts)).length < 100 :=
        lt_of_le_of_lt (pyStrip_length_le _) hlen
      simp [h2]
    rw [parsePdf_ocr_path pdf ts fname henc hne hscan]
    rfl

/-- C3 witness: a one-page whitespace document with OCR available — the
result's pages are the OCR pages. -/
theorem c3_scanned_heuristic_witness :
    parsedPages (parsePdf ⟨false, [[]]⟩ (some [str "x"]) none (str "doc.pdf")) =
      some (numberPages [str "x"]) :=
  c3_scanned_heuristic.2 ⟨false, [[]]⟩ [str "x"] (str "doc.pdf") rfl
    (by decide) (by decide)

end DocSvc

